import Mathlib

/-!
Verification of the dependency-graph core of the Task Management System
(`backend/tasks`): the cycle-detecting edge-insertion endpoint
(`TaskViewSet.dependencies` together with `detect_cycle` and `_build_graph`
from `views.py`), the status-derivation rule (`auto_update_task_status`),
and the unchecked `TaskDependencyViewSet` create endpoint.

The database is embedded as plain data: the set of `TaskDependency` rows is a
list of ordered pairs `(task_id, depends_on_id)` in insertion (primary-key)
order, the set of `Task` rows is a list of task ids, and each task's `status`
column is a function from task ids to `Status`.
-/

namespace TaskMgmt

abbrev TaskId := Nat

/-- One `TaskDependency` row: `(task_id, depends_on_id)`. -/
abbrev DepEdge := TaskId × TaskId

/-- `Task.status` values (`Task.STATUS_CHOICES` in `models.py`). -/
inductive Status where
  | pending
  | in_progress
  | completed
  | blocked
deriving DecidableEq

/-- `_build_graph` (views.py:14-18): adjacency of the dependency rows.
`graph.setdefault(dep.task_id, []).append(dep.depends_on_id)` over all rows in
order, then `graph.get(node, [])`: the out-neighbours of `node` are the
`depends_on_id`s of the rows whose `task_id` is `node`, in row order. -/
def build_graph (deps : List DepEdge) : TaskId → List TaskId :=
  fun node => (deps.filter (fun e => e.1 == node)).map (fun e => e.2)

/-- The mutable closure state of the inner `dfs` in `detect_cycle`
(views.py:27-29): the `visited` set, the `stack` set and the `path` list.
The two Python sets are embedded as duplicate-free lists, used only through
membership. -/
structure DfsState where
  visited : List TaskId
  stack : List TaskId
  path : List TaskId
deriving DecidableEq

/-- The `for neighbor in graph.get(node, [])` loop of `dfs` (views.py:36-42):
`recur` is the recursive call at one fuel unit less.  A neighbour not yet
visited is explored recursively; a visited neighbour on the stack is a back
edge, so the neighbour is appended to `path` and `True` is returned; any other
visited neighbour is skipped. -/
def dfsGo (deps : List DepEdge) (recur : TaskId → DfsState → Option (Bool × DfsState)) :
    List TaskId → DfsState → Option (Bool × DfsState)
  | [], st => some (false, st)
  | n :: rest, st =>
    if n ∉ st.visited then
      match recur n st with
      | none => none
      | some (true, st2) => some (true, st2)
      | some (false, st2) => dfsGo deps recur rest st2
    else if n ∈ st.stack then
      some (true, ⟨st.visited, st.stack, st.path ++ [n]⟩)
    else
      dfsGo deps recur rest st

/-- The inner `dfs` of `detect_cycle` (views.py:31-46), with an explicit fuel
argument in place of Python's unbounded recursion (the recursion is in fact
bounded, proved below: each recursive call is guarded by `neighbor not in
visited` and `dfs` marks its node visited on entry).  On entry the node is
added to `visited` and `stack` and appended to `path`; after the neighbour
loop returns `False` the node is removed from `stack` and popped from `path`. -/
def dfs (deps : List DepEdge) : Nat → TaskId → DfsState → Option (Bool × DfsState)
  | 0, _, _ => none
  | fuel + 1, node, st =>
    match dfsGo deps (dfs deps fuel) (build_graph deps node)
        ⟨node :: st.visited, node :: st.stack, st.path ++ [node]⟩ with
    | none => none
    | some (true, st2) => some (true, st2)
    | some (false, st2) => some (false, ⟨st2.visited, st2.stack.erase node, st2.path.dropLast⟩)

/-- `detect_cycle` (views.py:21-49): run `dfs` from `start_task_id` on the
graph built from all dependency rows, starting from empty `visited`, `stack`
and `path`; return `(has_cycle, path if has_cycle else [])`.  The fuel
`2 * deps.length + 2` strictly exceeds the number of distinct nodes the
search can ever visit, so it is never exhausted (theorem `dfs_total`). -/
def detect_cycle (deps : List DepEdge) (start : TaskId) : Bool × List TaskId :=
  match dfs deps (2 * deps.length + 2) start ⟨[], [], []⟩ with
  | some (b, st) => (b, if b then st.path else [])
  | none => (false, [])

/-- `TaskDependency.objects.get_or_create(task=task, depends_on=depends_on)`
(views.py:101): insert the row if absent (new rows sort last in primary-key
order), no-op if present — duplicates are also excluded by the
`unique_together = ("task", "depends_on")` constraint (models.py:39). -/
def add_edge (deps : List DepEdge) (a b : TaskId) : List DepEdge :=
  if (a, b) ∈ deps then deps else deps ++ [(a, b)]

/-- Outcome of a `POST /api/tasks/{id}/dependencies/` request
(`TaskViewSet.dependencies`, views.py:73-117). -/
inductive PResult where
  /-- 404 from `self.get_object()`: the target task id does not exist. -/
  | notFoundTask
  /-- 400 `"Task cannot depend on itself"` (views.py:87-91). -/
  | selfDep
  /-- 404 `"depends_on task not found"` (views.py:93-98). -/
  | notFoundDep
  /-- 400 `"Circular dependency detected"` with the witness `path`
  (views.py:104-112); the staged row is rolled back. -/
  | cycleError (path : List TaskId)
  /-- 201: the staged row stands committed (views.py:114-117). -/
  | created
deriving DecidableEq

/-- `TaskViewSet.dependencies` (views.py:73-117), the `propose_edge`
operation: `tasks` is the set of existing task ids, `deps` the committed
dependency rows, `a` the URL's task id and `b` the request's `depends_on_id`.
Checks in source order: `get_object` 404, self-dependency 400, `depends_on`
404; then the edge is staged with `get_or_create`, `detect_cycle(task.id)`
runs on the staged rows, and the transaction is rolled back on a cycle and
committed otherwise.  Returns the response together with the committed rows
after the call. -/
def propose_edge (tasks : List TaskId) (deps : List DepEdge) (a b : TaskId) :
    PResult × List DepEdge :=
  if a ∉ tasks then (.notFoundTask, deps)
  else if b == a then (.selfDep, deps)
  else if b ∉ tasks then (.notFoundDep, deps)
  else
    let staged := add_edge deps a b
    let r := detect_cycle staged a
    if r.1 then (.cycleError r.2, deps)
    else (.created, staged)

/-- A sequence of `propose_edge` calls, each running on the edge set the
previous call committed. -/
def propose_edge_seq (tasks : List TaskId) (deps : List DepEdge)
    (calls : List (TaskId × TaskId)) : List DepEdge :=
  calls.foldl (fun e c => (propose_edge tasks e c.1 c.2).2) deps

/-- Nonempty directed walks over the dependency rows: `ReachP deps u v` holds
when the graph contains a path of one or more edges from `u` to `v`. -/
inductive ReachP (deps : List DepEdge) : TaskId → TaskId → Prop where
  | single {u v : TaskId} : (u, v) ∈ deps → ReachP deps u v
  | cons {u v w : TaskId} : (u, v) ∈ deps → ReachP deps v w → ReachP deps u w

/-- The dependency rows, viewed as a directed graph over task ids, contain no
cycle: no node reaches itself by a nonempty walk. -/
def Acyclic (deps : List DepEdge) : Prop := ∀ n, ¬ ReachP deps n n

/-- `auto_update_task_status` (views.py:52-66): the status written to
`task.status`.  `deps_statuses` are the statuses of the tasks the given task
directly depends on (`Task.objects.filter(dependents__task=task)`).  With no
dependencies the function returns early and the status is untouched; else
Blocked if some dependency is blocked; else Pending if some dependency is
pending or in progress; else In-Progress when every dependency is completed;
otherwise (unreachable: the four statuses are exhaustive) the status is left
as it was. -/
def auto_update_task_status (deps : List DepEdge) (stat : TaskId → Status)
    (t : TaskId) : Status :=
  let deps_statuses := (build_graph deps t).map stat
  if deps_statuses.isEmpty then stat t
  else if Status.blocked ∈ deps_statuses then .blocked
  else if deps_statuses.any (fun s => s == .pending || s == .in_progress) then .pending
  else if deps_statuses.count .completed == deps_statuses.length then .in_progress
  else stat t

/-- The value `auto_update_task_status` returns to its caller: the Python
function is annotated `-> None` and ends without a `return` expression (its
only early `return` at views.py:57 is bare), so on every path the caller
receives `None` — embedded as `Option (Status × Bool)` so it can be compared
with the `(new_status, changed)` pair the specification describes. -/
def auto_update_task_status_ret (deps : List DepEdge) (stat : TaskId → Status)
    (t : TaskId) : Option (Status × Bool) :=
  none

/-- Modelled from the spec (§4.2, §6): `derive_status(task_id) ->
(new_status, changed)` — the new status follows the §4.2 table (unchanged
without dependencies; Blocked dominates; else Pending when some dependency is
pending or in progress; else In-Progress), and `changed` signals whether a
transition occurred. -/
def derive_status_spec (deps : List DepEdge) (stat : TaskId → Status)
    (t : TaskId) : Status × Bool :=
  let deps_statuses := (build_graph deps t).map stat
  let ns :=
    if deps_statuses.isEmpty then stat t
    else if Status.blocked ∈ deps_statuses then Status.blocked
    else if deps_statuses.any (fun s => s == .pending || s == .in_progress) then Status.pending
    else Status.in_progress
  (ns, decide (ns ≠ stat t))

/-- Outcome of `POST /api/dependencies/` (`TaskDependencyViewSet`,
views.py:120-122). -/
inductive CResult where
  /-- 400 from serializer validation: a foreign key does not exist, or the
  `unique_together` validator rejects a duplicate pair. -/
  | invalid
  /-- 201: row created. -/
  | created
deriving DecidableEq

/-- `TaskDependencyViewSet` (views.py:120-122): the stock `ModelViewSet`
create action.  `TaskDependencySerializer` validates only that both foreign
keys exist and (via the `unique_together` constraint of models.py:39) that
the pair is not already present; it then saves the row unconditionally — no
self-dependency check and no cycle detection. -/
def dependency_create (tasks : List TaskId) (deps : List DepEdge) (a b : TaskId) :
    CResult × List DepEdge :=
  if a ∉ tasks then (.invalid, deps)
  else if b ∉ tasks then (.invalid, deps)
  else if (a, b) ∈ deps then (.invalid, deps)
  else (.created, deps ++ [(a, b)])

/-- A node is *finished* when it is visited and no longer on the stack. -/
def Finished (st : DfsState) (x : TaskId) : Prop :=
  x ∈ st.visited ∧ x ∉ st.stack

/-- The finished nodes are closed under out-edges and admit a strictly
decreasing rank along edges (a topological order on the explored region). -/
def DfsInv (deps : List DepEdge) (st : DfsState) : Prop :=
  ∃ rank : TaskId → Nat, ∀ u, Finished st u → ∀ v, v ∈ build_graph deps u →
    Finished st v ∧ rank v < rank u

/-- While the search runs, `path` is a duplicate-free chain of edges, `stack`
holds exactly the nodes of `path`, and every stacked node is visited. -/
def GoodSt (deps : List DepEdge) (st : DfsState) : Prop :=
  st.path.Nodup ∧ List.Chain' (fun u v => (u, v) ∈ deps) st.path ∧
    (∀ x, x ∈ st.stack ↔ x ∈ st.path) ∧ ∀ x ∈ st.stack, x ∈ st.visited

/-- The node a `dfs` call is about to explore extends the current path: the
path is empty (top-level call) or its last node has an edge to it. -/
def LinkTo (deps : List DepEdge) (st : DfsState) (node : TaskId) : Prop :=
  st.path = [] ∨ ∃ u, st.path.getLast? = some u ∧ (u, node) ∈ deps

/-! ## Basic facts about the adjacency function and the DFS -/

theorem mem_build_graph {deps : List DepEdge} {u v : TaskId} :
    v ∈ build_graph deps u ↔ (u, v) ∈ deps := by
  constructor
  · intro h
    simp only [build_graph, List.mem_map, List.mem_filter, beq_iff_eq] at h
    obtain ⟨e, ⟨he, h1⟩, h2⟩ := h
    have he2 : e = (u, v) := by cases e; simp_all
    rwa [he2] at he
  · intro h
    simp only [build_graph, List.mem_map, List.mem_filter, beq_iff_eq]
    exact ⟨(u, v), ⟨h, rfl⟩, rfl⟩

theorem dfsGo_mono {deps : List DepEdge}
    {recur : TaskId → DfsState → Option (Bool × DfsState)}
    (hrec : ∀ n st b st2, recur n st = some (b, st2) → st.visited ⊆ st2.visited) :
    ∀ ns st b st2, dfsGo deps recur ns st = some (b, st2) → st.visited ⊆ st2.visited := by
  intro ns
  induction ns with
  | nil =>
    intro st b st2 h
    simp only [dfsGo] at h
    cases h
    exact List.Subset.refl _
  | cons n rest ih =>
    intro st b st2 h
    simp only [dfsGo] at h
    split at h
    · cases hrc : recur n st with
      | none => rw [hrc] at h; exact absurd h (by simp)
      | some p =>
        rw [hrc] at h
        obtain ⟨b1, stm⟩ := p
        cases b1 with
        | true => cases h; exact hrec n st true st2 hrc
        | false => exact (hrec n st false stm hrc).trans (ih stm b st2 h)
    · split at h
      · cases h; exact List.Subset.refl _
      · exact ih st b st2 h

theorem dfs_mono {deps : List DepEdge} :
    ∀ fuel node st b st2, dfs deps fuel node st = some (b, st2) →
      st.visited ⊆ st2.visited := by
  intro fuel
  induction fuel with
  | zero => intro node st b st2 h; exact absurd h (by simp [dfs])
  | succ fuel ih =>
    intro node st b st2 h
    simp only [dfs] at h
    cases hgo : dfsGo deps (dfs deps fuel) (build_graph deps node)
        ⟨node :: st.visited, node :: st.stack, st.path ++ [node]⟩ with
    | none => rw [hgo] at h; exact absurd h (by simp)
    | some p =>
      rw [hgo] at h
      obtain ⟨b1, stm⟩ := p
      have hmono := dfsGo_mono (fun n st b st2 hh => ih n st b st2 hh) _ _ _ _ hgo
      have hsub : st.visited ⊆ stm.visited :=
        fun x hx => hmono (List.mem_cons_of_mem _ hx)
      cases b1 with
      | true => cases h; exact hsub
      | false => cases h; exact hsub

theorem dfsGo_frame {deps : List DepEdge}
    {recur : TaskId → DfsState → Option (Bool × DfsState)}
    (hrec : ∀ n st st2, recur n st = some (false, st2) →
      st2.stack = st.stack ∧ st2.path = st.path) :
    ∀ ns st st2, dfsGo deps recur ns st = some (false, st2) →
      st2.stack = st.stack ∧ st2.path = st.path := by
  intro ns
  induction ns with
  | nil =>
    intro st st2 h
    simp only [dfsGo] at h
    cases h
    exact ⟨rfl, rfl⟩
  | cons n rest ih =>
    intro st st2 h
    simp only [dfsGo] at h
    split at h
    · cases hrc : recur n st with
      | none => rw [hrc] at h; exact absurd h (by simp)
      | some p =>
        rw [hrc] at h
        obtain ⟨b1, stm⟩ := p
        cases b1 with
        | true => exact absurd h (by simp)
        | false =>
          obtain ⟨hs1, hp1⟩ := hrec n st stm hrc
          obtain ⟨hs2, hp2⟩ := ih stm st2 h
          exact ⟨hs2.trans hs1, hp2.trans hp1⟩
    · split at h
      · exact absurd h (by simp)
      · exact ih st st2 h

theorem dfs_frame {deps : List DepEdge} :
    ∀ fuel node st st2, dfs deps fuel node st = some (false, st2) →
      st2.stack = st.stack ∧ st2.path = st.path := by
  intro fuel
  induction fuel with
  | zero => intro node st st2 h; exact absurd h (by simp [dfs])
  | succ fuel ih =>
    intro node st st2 h
    simp only [dfs] at h
    cases hgo : dfsGo deps (dfs deps fuel) (build_graph deps node)
        ⟨node :: st.visited, node :: st.stack, st.path ++ [node]⟩ with
    | none => rw [hgo] at h; exact absurd h (by simp)
    | some p =>
      rw [hgo] at h
      obtain ⟨b1, stm⟩ := p
      cases b1 with
      | true => exact absurd h (by simp)
      | false =>
        obtain ⟨hs, hp⟩ := dfsGo_frame (fun n st st2 hh => ih n st st2 hh) _ _ _ hgo
        cases h
        constructor
        · show stm.stack.erase node = st.stack
          rw [hs]
          exact List.erase_cons_head node st.stack
        · show stm.path.dropLast = st.path
          rw [hp]
          exact List.dropLast_concat

/-! ## Termination of the depth-first search

Every recursive `dfs` call is made on a node not yet in `visited`, and `dfs`
adds its node to `visited` on entry, so the recursion depth is bounded by the
number of distinct nodes reachable through the edge list.  The measure is the
number of elements of a closed node universe `S` not yet visited. -/

theorem measure_mono {S : Finset TaskId} {v1 v2 : List TaskId} (h : v1 ⊆ v2) :
    (S \ v2.toFinset).card ≤ (S \ v1.toFinset).card := by
  apply Finset.card_le_card
  intro x hx
  rw [Finset.mem_sdiff, List.mem_toFinset] at hx ⊢
  exact ⟨hx.1, fun hc => hx.2 (h hc)⟩

theorem measure_strict {S : Finset TaskId} {v : List TaskId} {node : TaskId}
    (hnS : node ∈ S) (hnv : node ∉ v) :
    (S \ (node :: v).toFinset).card < (S \ v.toFinset).card := by
  apply Finset.card_lt_card
  constructor
  · intro x hx
    rw [Finset.mem_sdiff, List.mem_toFinset] at hx ⊢
    exact ⟨hx.1, fun hc => hx.2 (List.mem_cons_of_mem _ hc)⟩
  · intro hc
    have := hc (Finset.mem_sdiff.mpr ⟨hnS, fun hm => hnv (List.mem_toFinset.mp hm)⟩)
    rw [Finset.mem_sdiff, List.mem_toFinset] at this
    exact this.2 (List.mem_cons_self _ _)

theorem dfsGo_some {deps : List DepEdge} {S : Finset TaskId}
    {recur : TaskId → DfsState → Option (Bool × DfsState)} {F : Nat}
    (hrecSome : ∀ n st, n ∈ S → n ∉ st.visited →
      (S \ st.visited.toFinset).card < F → ∃ r, recur n st = some r)
    (hrecMono : ∀ n st b st2, recur n st = some (b, st2) → st.visited ⊆ st2.visited) :
    ∀ ns st, (∀ n ∈ ns, n ∈ S) → (S \ st.visited.toFinset).card < F →
      ∃ r, dfsGo deps recur ns st = some r := by
  intro ns
  induction ns with
  | nil =>
    intro st _ _
    exact ⟨(false, st), rfl⟩
  | cons n rest ih =>
    intro st hns hμ
    simp only [dfsGo]
    split
    · rename_i hnv
      obtain ⟨⟨b, stm⟩, hr⟩ := hrecSome n st (hns n (List.mem_cons_self _ _)) hnv hμ
      rw [hr]
      cases b with
      | true => exact ⟨(true, stm), rfl⟩
      | false =>
        have hμ2 : (S \ stm.visited.toFinset).card < F :=
          lt_of_le_of_lt (measure_mono (hrecMono n st false stm hr)) hμ
        exact ih stm (fun m hm => hns m (List.mem_cons_of_mem _ hm)) hμ2
    · split
      · exact ⟨_, rfl⟩
      · exact ih st (fun m hm => hns m (List.mem_cons_of_mem _ hm)) hμ

theorem dfs_some {deps : List DepEdge} {S : Finset TaskId}
    (hS : ∀ u v, (u, v) ∈ deps → v ∈ S) :
    ∀ fuel node st, node ∈ S → node ∉ st.visited →
      (S \ st.visited.toFinset).card < fuel →
      ∃ r, dfs deps fuel node st = some r := by
  intro fuel
  induction fuel with
  | zero =>
    intro node st _ _ hμ
    exact absurd hμ (Nat.not_lt_zero _)
  | succ fuel ih =>
    intro node st hnS hnv hμ
    simp only [dfs]
    have hμ1 : (S \ (node :: st.visited).toFinset).card < fuel := by
      have h1 := measure_strict hnS hnv (v := st.visited)
      omega
    obtain ⟨⟨b, stm⟩, hgo⟩ :=
      dfsGo_some (S := S) (F := fuel)
        (fun n st2 hn hv hm => ih n st2 hn hv hm)
        (fun n st2 b2 st3 hh => dfs_mono fuel n st2 b2 st3 hh)
        (build_graph deps node)
        ⟨node :: st.visited, node :: st.stack, st.path ++ [node]⟩
        (fun m hm => hS node m (mem_build_graph.mp hm))
        hμ1
    rw [hgo]
    cases b with
    | true => exact ⟨(true, stm), rfl⟩
    | false => exact ⟨(false, _), rfl⟩

/-- The fuel `detect_cycle` hands to `dfs` is never exhausted: the search from
any start node over any finite edge list completes. -/
theorem dfs_completes (deps : List DepEdge) (start : TaskId) :
    ∃ r, dfs deps (2 * deps.length + 2) start ⟨[], [], []⟩ = some r := by
  apply dfs_some (S := (start :: deps.map (fun e => e.2)).toFinset)
  · intro u v hm
    rw [List.mem_toFinset]
    exact List.mem_cons_of_mem _ (List.mem_map.mpr ⟨(u, v), hm, rfl⟩)
  · rw [List.mem_toFinset]
    exact List.mem_cons_self _ _
  · simp
  · show ((start :: deps.map (fun e => e.2)).toFinset
        \ (List.toFinset ([] : List TaskId))).card < 2 * deps.length + 2
    have h1 : ((start :: deps.map (fun e => e.2)).toFinset
        \ (List.toFinset ([] : List TaskId))).card
        ≤ (start :: deps.map (fun e => e.2)).length := by
      calc ((start :: deps.map (fun e => e.2)).toFinset
            \ (List.toFinset ([] : List TaskId))).card
          ≤ (start :: deps.map (fun e => e.2)).toFinset.card :=
            Finset.card_le_card (Finset.sdiff_subset)
        _ ≤ (start :: deps.map (fun e => e.2)).length := List.toFinset_card_le _
    simp only [List.length_cons, List.length_map] at h1
    omega

/-! ## Completeness of the cycle detection

A node is *finished* when it is visited and no longer on the stack.  When the
search returns `False`, every finished node's out-neighbours are finished and
can be ranked strictly below it, so no walk from a finished node can return
to it: the graph has no cycle reachable from the start node. -/

theorem le_foldr_max {a : Nat} : ∀ {l : List Nat}, a ∈ l → a ≤ l.foldr max 0 := by
  intro l
  induction l with
  | nil => intro h; exact absurd h (List.not_mem_nil _)
  | cons b l ih =>
    intro h
    rcases List.mem_cons.mp h with h1 | h2
    · subst h1; exact Nat.le_max_left _ _
    · exact le_trans (ih h2) (Nat.le_max_right _ _)

theorem dfsGo_inv {deps : List DepEdge}
    {recur : TaskId → DfsState → Option (Bool × DfsState)}
    (hrec : ∀ n st st2, recur n st = some (false, st2) → n ∉ st.visited →
      (∀ x ∈ st.stack, x ∈ st.visited) → DfsInv deps st →
      st.visited ⊆ st2.visited ∧ st2.stack = st.stack ∧ st2.path = st.path ∧
        DfsInv deps st2 ∧ Finished st2 n) :
    ∀ ns st st2, dfsGo deps recur ns st = some (false, st2) →
      (∀ x ∈ st.stack, x ∈ st.visited) → DfsInv deps st →
      st.visited ⊆ st2.visited ∧ st2.stack = st.stack ∧ st2.path = st.path ∧
        DfsInv deps st2 ∧ ∀ n ∈ ns, Finished st2 n := by
  intro ns
  induction ns with
  | nil =>
    intro st st2 h hsv hinv
    simp only [dfsGo] at h
    cases h
    exact ⟨List.Subset.refl _, rfl, rfl, hinv, by intro n hn; exact absurd hn (List.not_mem_nil _)⟩
  | cons n rest ih =>
    intro st st2 h hsv hinv
    simp only [dfsGo] at h
    split at h
    · rename_i hnv
      cases hrc : recur n st with
      | none => rw [hrc] at h; exact absurd h (by simp)
      | some p =>
        rw [hrc] at h
        obtain ⟨b1, stm⟩ := p
        cases b1 with
        | true => exact absurd h (by simp)
        | false =>
          obtain ⟨hm1, hs1, _hp1, hinv1, hfin1⟩ := hrec n st stm hrc hnv hsv hinv
          have hsv1 : ∀ x ∈ stm.stack, x ∈ stm.visited := by
            intro x hx
            rw [hs1] at hx
            exact hm1 (hsv x hx)
          obtain ⟨hm2, hs2, hp2, hinv2, hfin2⟩ := ih stm st2 h hsv1 hinv1
          refine ⟨hm1.trans hm2, hs2.trans hs1, hp2.trans _hp1, hinv2, ?_⟩
          intro m hm
          rcases List.mem_cons.mp hm with h1 | h2
          · subst h1
            exact ⟨hm2 hfin1.1, by rw [hs2]; exact hfin1.2⟩
          · exact hfin2 m h2
    · split at h
      · exact absurd h (by simp)
      · rename_i hv hns
        rw [not_not] at hv
        obtain ⟨hm2, hs2, hp2, hinv2, hfin2⟩ := ih st st2 h hsv hinv
        refine ⟨hm2, hs2, hp2, hinv2, ?_⟩
        intro m hm
        rcases List.mem_cons.mp hm with h1 | h2
        · subst h1
          exact ⟨hm2 hv, by rw [hs2]; exact hns⟩
        · exact hfin2 m h2

theorem dfs_inv {deps : List DepEdge} :
    ∀ fuel node st st2, dfs deps fuel node st = some (false, st2) → node ∉ st.visited →
      (∀ x ∈ st.stack, x ∈ st.visited) → DfsInv deps st →
      st.visited ⊆ st2.visited ∧ st2.stack = st.stack ∧ st2.path = st.path ∧
        DfsInv deps st2 ∧ Finished st2 node := by
  intro fuel
  induction fuel with
  | zero => intro node st st2 h; exact absurd h (by simp [dfs])
  | succ fuel ih =>
    intro node st st2 h hnv hsv hinv
    simp only [dfs] at h
    cases hgo : dfsGo deps (dfs deps fuel) (build_graph deps node)
        ⟨node :: st.visited, node :: st.stack, st.path ++ [node]⟩ with
    | none => rw [hgo] at h; exact absurd h (by simp)
    | some p =>
      rw [hgo] at h
      obtain ⟨b1, stm⟩ := p
      cases b1 with
      | true => exact absurd h (by simp)
      | false =>
        have hsv1 : ∀ x ∈ (⟨node :: st.visited, node :: st.stack, st.path ++ [node]⟩ :
            DfsState).stack, x ∈ (⟨node :: st.visited, node :: st.stack, st.path ++ [node]⟩ :
            DfsState).visited := by
          intro x hx
          rcases List.mem_cons.mp hx with h1 | h2
          · subst h1; exact List.mem_cons_self _ _
          · exact List.mem_cons_of_mem _ (hsv x h2)
        have hfin_iff : ∀ x, Finished ⟨node :: st.visited, node :: st.stack,
            st.path ++ [node]⟩ x ↔ Finished st x := by
          intro x
          constructor
          · rintro ⟨h1, h2⟩
            have hxn : x ≠ node := fun hc => h2 (hc ▸ List.mem_cons_self _ _)
            exact ⟨(List.mem_cons.mp h1).resolve_left hxn,
              fun hc => h2 (List.mem_cons_of_mem _ hc)⟩
          · rintro ⟨h1, h2⟩
            have hxn : x ≠ node := fun hc => hnv (hc ▸ h1)
            refine ⟨List.mem_cons_of_mem _ h1, fun hc => ?_⟩
            rcases List.mem_cons.mp hc with h3 | h3
            · exact hxn h3
            · exact h2 h3
        have hinv1 : DfsInv deps ⟨node :: st.visited, node :: st.stack, st.path ++ [node]⟩ := by
          obtain ⟨rank, hrank⟩ := hinv
          refine ⟨rank, ?_⟩
          intro u hu v hv
          obtain ⟨hfv, hr⟩ := hrank u ((hfin_iff u).mp hu) v hv
          exact ⟨(hfin_iff v).mpr hfv, hr⟩
        obtain ⟨hm1, hs1, hp1, hinvm, hfinm⟩ :=
          dfsGo_inv (fun n s s2 hh h1 h2 h3 => ih n s s2 hh h1 h2 h3) _ _ _ hgo hsv1 hinv1
        cases h
        have hnstack : node ∉ st.stack := fun hc => hnv (hsv node hc)
        have hstack2 : stm.stack.erase node = st.stack := by
          rw [hs1]; exact List.erase_cons_head node st.stack
        have hnode_vis : node ∈ stm.visited := hm1 (List.mem_cons_self _ _)
        have hfin2_iff : ∀ x, Finished ⟨stm.visited, stm.stack.erase node,
            stm.path.dropLast⟩ x ↔ (x ∈ stm.visited ∧ x ∉ st.stack) := by
          intro x
          rw [Finished]
          simp only [hstack2]
        have hfinm_iff : ∀ x, Finished stm x ↔
            (x ∈ stm.visited ∧ x ∉ st.stack ∧ x ≠ node) := by
          intro x
          rw [Finished, hs1]
          constructor
          · rintro ⟨h1, h2⟩
            exact ⟨h1, fun hc => h2 (List.mem_cons_of_mem _ hc),
              fun hc => h2 (hc ▸ List.mem_cons_self _ _)⟩
          · rintro ⟨h1, h2, h3⟩
            refine ⟨h1, fun hc => ?_⟩
            rcases List.mem_cons.mp hc with h4 | h4
            · exact h3 h4
            · exact h2 h4
        refine ⟨?_, hstack2, by rw [hp1]; exact List.dropLast_concat, ?_, ?_⟩
        · exact fun x hx => hm1 (List.mem_cons_of_mem _ hx)
        · -- the invariant for the final state: rank `node` above its neighbours
          obtain ⟨rank, hrank⟩ := hinvm
          refine ⟨fun x => if x = node then
            ((build_graph deps node).map rank).foldr max 0 + 1 else rank x, ?_⟩
          intro u hu v hv
          by_cases hun : u = node
          · subst hun
            have hfv : Finished stm v := hfinm v hv
            obtain ⟨hv1, hv2, hv3⟩ := (hfinm_iff v).mp hfv
            refine ⟨(hfin2_iff v).mpr ⟨hv1, hv2⟩, ?_⟩
            simp only [hv3, if_false, if_pos rfl, if_true, if_neg hv3]
            have : rank v ≤ ((build_graph deps u).map rank).foldr max 0 :=
              le_foldr_max (List.mem_map.mpr ⟨v, hv, rfl⟩)
            omega
          · have hfu : Finished stm u := by
              rw [hfinm_iff]
              obtain ⟨h1, h2⟩ := (hfin2_iff u).mp hu
              exact ⟨h1, h2, hun⟩
            obtain ⟨hfv, hr⟩ := hrank u hfu v hv
            obtain ⟨hv1, hv2, hv3⟩ := (hfinm_iff v).mp hfv
            refine ⟨(hfin2_iff v).mpr ⟨hv1, hv2⟩, ?_⟩
            simp only [if_neg hun, if_neg hv3]
            exact hr
        · exact (hfin2_iff node).mpr ⟨hnode_vis, hnstack⟩

/-! ## Reachability and acyclicity -/

theorem reachP_trans {deps : List DepEdge} {u v w : TaskId}
    (h1 : ReachP deps u v) (h2 : ReachP deps v w) : ReachP deps u w := by
  revert h2
  induction h1 with
  | single h => intro h2; exact ReachP.cons h h2
  | cons h _ ih => intro h2; exact ReachP.cons h (ih h2)

theorem reachP_mono {deps deps2 : List DepEdge} {u v : TaskId}
    (hsub : ∀ e ∈ deps, e ∈ deps2) (h : ReachP deps u v) : ReachP deps2 u v := by
  induction h with
  | single h => exact ReachP.single (hsub _ h)
  | cons h _ ih => exact ReachP.cons (hsub _ h) ih

theorem acyclic_nil : Acyclic ([] : List DepEdge) := by
  intro n h
  cases h with
  | single h => exact absurd h (List.not_mem_nil _)
  | cons h _ => exact absurd h (List.not_mem_nil _)

/-- No finished node of an invariant-satisfying search state lies on a cycle. -/
theorem reachP_finished {deps : List DepEdge} {st : DfsState} (hinv : DfsInv deps st)
    {u : TaskId} (hu : Finished st u) : ¬ ReachP deps u u := by
  obtain ⟨rank, hrank⟩ := hinv
  have aux : ∀ {x y}, ReachP deps x y → Finished st x →
      Finished st y ∧ rank y < rank x := by
    intro x y h
    induction h with
    | single hm => intro hx; exact hrank _ hx _ (mem_build_graph.mpr hm)
    | cons hm _ ih =>
      intro hx
      obtain ⟨hf, hlt⟩ := hrank _ hx _ (mem_build_graph.mpr hm)
      obtain ⟨hf2, hlt2⟩ := ih hf
      exact ⟨hf2, hlt2.trans hlt⟩
  intro h
  exact absurd (aux h hu).2 (lt_irrefl _)

/-- When `detect_cycle` reports no cycle, no task reachable from the start
node lies on a cycle; in particular the start node does not reach itself. -/
theorem detect_cycle_fst_false {deps : List DepEdge} {start : TaskId}
    (h : (detect_cycle deps start).1 = false) : ¬ ReachP deps start start := by
  obtain ⟨⟨b, st2⟩, hr⟩ := dfs_completes deps start
  have hb : b = false := by
    simp only [detect_cycle] at h
    rw [hr] at h
    simpa using h
  subst hb
  have hinv0 : DfsInv deps ⟨[], [], []⟩ :=
    ⟨fun _ => 0, fun u hu => absurd hu.1 (List.not_mem_nil _)⟩
  obtain ⟨_, _, _, hinv, hfin⟩ := dfs_inv _ start _ _ hr (List.not_mem_nil _)
    (fun x hx => absurd hx (List.not_mem_nil _)) hinv0
  exact reachP_finished hinv hfin

/-- A walk in `deps ++ [(a, b)]` either stays in `deps` or passes through the
new edge `(a, b)`: it reaches `a` first and continues from `b`. -/
theorem reachP_append {deps : List DepEdge} {a b u v : TaskId}
    (h : ReachP (deps ++ [(a, b)]) u v) :
    ReachP deps u v ∨
      ((u = a ∨ ReachP (deps ++ [(a, b)]) u a) ∧
       (b = v ∨ ReachP (deps ++ [(a, b)]) b v)) := by
  induction h with
  | single hm =>
    rcases List.mem_append.mp hm with h1 | h2
    · exact Or.inl (ReachP.single h1)
    · have he : (_, _) = (a, b) := List.mem_singleton.mp h2
      cases he
      exact Or.inr ⟨Or.inl rfl, Or.inl rfl⟩
  | cons hm hr ih =>
    rcases List.mem_append.mp hm with h1 | h2
    · rcases ih with h3 | ⟨hxa, hbv⟩
      · exact Or.inl (ReachP.cons h1 h3)
      · refine Or.inr ⟨?_, hbv⟩
        rcases hxa with h4 | h4
        · exact Or.inr (ReachP.single (List.mem_append.mpr (Or.inl (h4 ▸ h1))))
        · exact Or.inr (ReachP.cons (List.mem_append.mpr (Or.inl h1)) h4)
    · have he : (_, _) = (a, b) := List.mem_singleton.mp h2
      cases he
      exact Or.inr ⟨Or.inl rfl, Or.inr hr⟩

/-- Staging one new edge `(a, b)` into an acyclic graph can only create
cycles through `a`; if `a` does not reach itself afterwards, the staged graph
is still acyclic. -/
theorem acyclic_add {deps : List DepEdge} {a b : TaskId} (hac : Acyclic deps)
    (hna : ¬ ReachP (deps ++ [(a, b)]) a a) : Acyclic (deps ++ [(a, b)]) := by
  intro n hn
  have hedge : (a, b) ∈ deps ++ [(a, b)] :=
    List.mem_append.mpr (Or.inr (List.mem_singleton.mpr rfl))
  rcases reachP_append hn with h1 | ⟨hna', hbn⟩
  · exact hac n h1
  · apply hna
    rcases hna' with h2 | h2
    · exact h2 ▸ hn
    · rcases hbn with h3 | h3
      · exact ReachP.cons hedge (h3 ▸ h2)
      · exact ReachP.cons hedge (reachP_trans h3 h2)

/-- One `propose_edge` call preserves acyclicity of the committed edge set,
whatever response it returns: error branches leave the rows untouched (the
cycle branch by rollback), and the success branch commits the staged edge
only after `detect_cycle` found no cycle from the task — and since the graph
was acyclic before, any new cycle would pass through the staged edge's
source. -/
theorem propose_edge_preserves_acyclic {tasks : List TaskId} {deps : List DepEdge}
    (hac : Acyclic deps) (a b : TaskId) : Acyclic (propose_edge tasks deps a b).2 := by
  simp only [propose_edge]
  split
  · exact hac
  · split
    · exact hac
    · split
      · exact hac
      · split
        · exact hac
        · rename_i hcirc
          show Acyclic (add_edge deps a b)
          rw [Bool.not_eq_true] at hcirc
          by_cases hmem : (a, b) ∈ deps
          · simpa [add_edge, hmem] using hac
          · rw [add_edge, if_neg hmem] at hcirc ⊢
            exact acyclic_add hac (detect_cycle_fst_false hcirc)

/-- Either a `propose_edge` call leaves the committed rows untouched, or it
returns 201 and commits exactly the staged edge set. -/
theorem propose_edge_cases (tasks : List TaskId) (deps : List DepEdge) (a b : TaskId) :
    (propose_edge tasks deps a b).2 = deps ∨
      ((propose_edge tasks deps a b).1 = .created ∧
       (propose_edge tasks deps a b).2 = add_edge deps a b) := by
  simp only [propose_edge]
  split
  · exact Or.inl rfl
  · split
    · exact Or.inl rfl
    · split
      · exact Or.inl rfl
      · split
        · exact Or.inl rfl
        · exact Or.inr ⟨rfl, rfl⟩

theorem mem_add_edge (deps : List DepEdge) (a b : TaskId) :
    (a, b) ∈ add_edge deps a b := by
  rw [add_edge]
  split
  · assumption
  · exact List.mem_append.mpr (Or.inr (List.mem_singleton.mpr rfl))

theorem add_edge_mem_eq {deps : List DepEdge} {a b : TaskId} (h : (a, b) ∈ deps) :
    add_edge deps a b = deps := by rw [add_edge, if_pos h]

theorem propose_edge_seq_acyclic (tasks : List TaskId) :
    ∀ (calls : List (TaskId × TaskId)) {deps : List DepEdge}, Acyclic deps →
      Acyclic (propose_edge_seq tasks deps calls) := by
  intro calls
  induction calls with
  | nil => intro deps hac; exact hac
  | cons c rest ih =>
    intro deps hac
    exact ih (propose_edge_preserves_acyclic hac c.1 c.2)

/-! ## The claims -/

/-- **C1**: for every sequence of `propose_edge` calls starting from an
acyclic edge set, after each call returns — with success or with an error —
the committed edge set, viewed as a directed graph over task ids, contains no
cycle.  (The state after the `n`-th call is the run of the length-`n` request
sequence, so acyclicity after each call is acyclicity after every
take-of-the-call-list.) -/
theorem C1_acyclicity_invariant (tasks : List TaskId) (deps : List DepEdge)
    (calls : List (TaskId × TaskId)) (hac : Acyclic deps) (n : Nat) :
    Acyclic (propose_edge_seq tasks deps (calls.take n)) :=
  propose_edge_seq_acyclic tasks _ hac

theorem C1_witness :
    Acyclic (propose_edge_seq [1, 2, 3] [] ([(1, 2), (2, 3), (3, 1)].take 3)) :=
  C1_acyclicity_invariant [1, 2, 3] [] [(1, 2), (2, 3), (3, 1)] acyclic_nil 3

/-- **C2**: whenever `propose_edge(a, b)` answers `Circular dependency
detected`, the committed edge set after the call equals the edge set before
the call: the staged edge was rolled back and no other edge was added or
removed. -/
theorem C2_cycle_error_rollback (tasks : List TaskId) (deps : List DepEdge)
    (a b : TaskId) (p : List TaskId)
    (h : (propose_edge tasks deps a b).1 = .cycleError p) :
    (propose_edge tasks deps a b).2 = deps := by
  rcases propose_edge_cases tasks deps a b with h1 | ⟨h1, _⟩
  · exact h1
  · rw [h1] at h
    exact absurd h (by simp)

theorem C2_witness :
    (propose_edge [1, 2, 3] [(1, 2), (2, 3)] 3 1).2 = [(1, 2), (2, 3)] :=
  C2_cycle_error_rollback [1, 2, 3] [(1, 2), (2, 3)] 3 1 [3, 1, 2, 3] (by decide)

/-- **C3**: for every existing task `t` and every edge set,
`propose_edge(t, t)` fails with the self-dependency error — the `task cannot
depend on itself` check runs before the edge is ever staged — and leaves the
edge set unchanged. -/
theorem C3_self_dependency_rejected (tasks : List TaskId) (deps : List DepEdge)
    (t : TaskId) (ht : t ∈ tasks) :
    propose_edge tasks deps t t = (.selfDep, deps) := by
  simp [propose_edge, ht]

theorem C3_witness : propose_edge [1] [] 1 1 = (.selfDep, []) :=
  C3_self_dependency_rejected [1] [] 1 (by decide)

/-- **C4**: if `propose_edge(a, b)` succeeds, an immediately repeated
`propose_edge(a, b)` on the resulting state also succeeds and is a no-op:
`get_or_create` finds the existing row, and the committed edge set is
unchanged. -/
theorem C4_idempotent_add (tasks : List TaskId) (deps deps1 : List DepEdge)
    (a b : TaskId) (h : propose_edge tasks deps a b = (.created, deps1)) :
    propose_edge tasks deps1 a b = (.created, deps1) := by
  simp only [propose_edge] at h
  split at h
  · exact absurd h (by simp)
  · split at h
    · exact absurd h (by simp)
    · split at h
      · exact absurd h (by simp)
      · split at h
        · exact absurd h (by simp)
        · rename_i h1 h2 h3 hcirc
          have hd : add_edge deps a b = deps1 := congrArg Prod.snd h
          subst hd
          simp only [propose_edge]
          rw [if_neg h1, if_neg h2, if_neg h3,
            add_edge_mem_eq (mem_add_edge deps a b), if_neg hcirc]

theorem C4_witness : propose_edge [1, 2] [(1, 2)] 1 2 = (.created, [(1, 2)]) :=
  C4_idempotent_add [1, 2] [] [(1, 2)] 1 2 (by decide)

/-- When a nonempty multiset of dependency statuses contains no `blocked` and
no `pending`/`in_progress`, every element is `completed`, so the final
`count == length` test of `auto_update_task_status` succeeds. -/
theorem count_completed_full {ds : List Status} (hnb : Status.blocked ∉ ds)
    (hna : ¬ ds.any (fun s => s == .pending || s == .in_progress) = true) :
    (ds.count .completed == ds.length) = true := by
  rw [beq_iff_eq, List.count_eq_length]
  intro b hb
  cases b with
  | pending => exact absurd (List.any_eq_true.mpr ⟨_, hb, by decide⟩) hna
  | in_progress => exact absurd (List.any_eq_true.mpr ⟨_, hb, by decide⟩) hna
  | blocked => exact absurd hb hnb
  | completed => rfl

/-- **C5**: `auto_update_task_status` follows the §4.2 table: with no direct
dependencies the status is left unchanged; otherwise Blocked dominates, then
Pending (when some dependency is pending or in progress), and when all
dependencies are completed the task becomes In-Progress. -/
theorem C5_status_derivation_table (deps : List DepEdge) (stat : TaskId → Status)
    (t : TaskId) :
    ((build_graph deps t).map stat = [] → auto_update_task_status deps stat t = stat t) ∧
    ((build_graph deps t).map stat ≠ [] →
      (Status.blocked ∈ (build_graph deps t).map stat →
        auto_update_task_status deps stat t = .blocked) ∧
      (Status.blocked ∉ (build_graph deps t).map stat →
        (Status.pending ∈ (build_graph deps t).map stat ∨
          Status.in_progress ∈ (build_graph deps t).map stat) →
        auto_update_task_status deps stat t = .pending) ∧
      ((∀ s ∈ (build_graph deps t).map stat, s = Status.completed) →
        auto_update_task_status deps stat t = .in_progress)) := by
  constructor
  · intro h
    simp only [auto_update_task_status, h]
    rfl
  · intro hne
    have hie : ¬ ((build_graph deps t).map stat).isEmpty = true := by
      cases h2 : (build_graph deps t).map stat with
      | nil => exact absurd h2 hne
      | cons a l => simp
    refine ⟨?_, ?_, ?_⟩
    · intro hb
      simp only [auto_update_task_status]
      rw [if_neg hie, if_pos hb]
    · intro hnb hp
      have hany : ((build_graph deps t).map stat).any
          (fun s => s == .pending || s == .in_progress) = true := by
        rcases hp with h | h
        · exact List.any_eq_true.mpr ⟨_, h, by decide⟩
        · exact List.any_eq_true.mpr ⟨_, h, by decide⟩
      simp only [auto_update_task_status]
      rw [if_neg hie, if_neg hnb, if_pos hany]
    · intro hall
      have hnb : Status.blocked ∉ (build_graph deps t).map stat := by
        intro hc
        exact absurd (hall _ hc) (by decide)
      have hna : ¬ ((build_graph deps t).map stat).any
          (fun s => s == .pending || s == .in_progress) = true := by
        intro hc
        obtain ⟨s, hs, hpred⟩ := List.any_eq_true.mp hc
        rw [hall s hs] at hpred
        exact absurd hpred (by decide)
      simp only [auto_update_task_status]
      rw [if_neg hie, if_neg hnb, if_neg hna, if_pos (count_completed_full hnb hna)]

theorem C5_witness :
    auto_update_task_status [(1, 2), (1, 3)]
      (fun n => if n == 2 then .completed else .pending) 1 = .pending :=
  (((C5_status_derivation_table [(1, 2), (1, 3)]
      (fun n => if n == 2 then .completed else .pending) 1).2
    (by decide)).2.1 (by decide)) (by decide)

/-- **C6**: the derivation never writes `completed`: whenever the task has at
least one direct dependency, the status `auto_update_task_status` assigns is
Blocked, Pending or In-Progress. -/
theorem C6_never_derives_completed (deps : List DepEdge) (stat : TaskId → Status)
    (t : TaskId) (h : build_graph deps t ≠ []) :
    auto_update_task_status deps stat t = .blocked ∨
    auto_update_task_status deps stat t = .pending ∨
    auto_update_task_status deps stat t = .in_progress := by
  have hne : (build_graph deps t).map stat ≠ [] := by
    intro hc
    exact h (List.map_eq_nil_iff.mp hc)
  have hie : ¬ ((build_graph deps t).map stat).isEmpty = true := by
    cases h2 : (build_graph deps t).map stat with
    | nil => exact absurd h2 hne
    | cons a l => simp
  simp only [auto_update_task_status]
  rw [if_neg hie]
  by_cases hb : Status.blocked ∈ (build_graph deps t).map stat
  · rw [if_pos hb]
    exact Or.inl rfl
  · rw [if_neg hb]
    by_cases ha : ((build_graph deps t).map stat).any
        (fun s => s == .pending || s == .in_progress) = true
    · rw [if_pos ha]
      exact Or.inr (Or.inl rfl)
    · rw [if_neg ha, if_pos (count_completed_full hb ha)]
      exact Or.inr (Or.inr rfl)

theorem C6_witness :
    auto_update_task_status [(1, 2)] (fun _ => Status.completed) 1 = .blocked ∨
    auto_update_task_status [(1, 2)] (fun _ => Status.completed) 1 = .pending ∨
    auto_update_task_status [(1, 2)] (fun _ => Status.completed) 1 = .in_progress :=
  C6_never_derives_completed [(1, 2)] (fun _ => Status.completed) 1 (by decide)

/-- **C7 counterexample**: with the single dependency row `(1, 2)` and task 2
blocked, recomputing task 1 transitions its status (to Blocked), yet the
value `auto_update_task_status` hands back to its caller is `None`, not the
pair `(new_status, changed)` the claim describes. -/
theorem C7_counterexample :
    auto_update_task_status_ret [(1, 2)]
      (fun n => if n == 2 then .blocked else .pending) 1 = none ∧
    derive_status_spec [(1, 2)]
      (fun n => if n == 2 then .blocked else .pending) 1 = (.blocked, true) ∧
    auto_update_task_status_ret [(1, 2)]
      (fun n => if n == 2 then .blocked else .pending) 1 ≠
      some (derive_status_spec [(1, 2)]
        (fun n => if n == 2 then .blocked else .pending) 1) :=
  ⟨rfl, by decide, by decide⟩

/-- **C7 amended**: `auto_update_task_status` writes exactly the new status
the spec's `derive_status` table prescribes in place, but it returns `None`
to its caller — no `(new_status, changed)` pair and hence no transition
signal. -/
theorem C7_amended_no_return_value (deps : List DepEdge) (stat : TaskId → Status)
    (t : TaskId) :
    auto_update_task_status deps stat t = (derive_status_spec deps stat t).1 ∧
    auto_update_task_status_ret deps stat t = none := by
  refine ⟨?_, rfl⟩
  simp only [auto_update_task_status, derive_status_spec]
  by_cases h1 : ((build_graph deps t).map stat).isEmpty = true
  · rw [if_pos h1, if_pos h1]
  · rw [if_neg h1, if_neg h1]
    by_cases h2 : Status.blocked ∈ (build_graph deps t).map stat
    · rw [if_pos h2, if_pos h2]
    · rw [if_neg h2, if_neg h2]
      by_cases h3 : ((build_graph deps t).map stat).any
          (fun s => s == .pending || s == .in_progress) = true
      · rw [if_pos h3, if_pos h3]
      · rw [if_neg h3, if_neg h3, if_pos (count_completed_full h2 h3)]

/-- **C9**: the depth-first search of `detect_cycle` is a bounded computation
on every finite edge list and every start node, cyclic edge sets included:
the `visited` guard admits each node at most once, so the fuel
`detect_cycle` supplies (strictly more than the number of distinct nodes)
is never exhausted and the traversal completes. -/
theorem C9_detect_cycle_terminates (deps : List DepEdge) (start : TaskId) :
    ∃ r : Bool × DfsState, dfs deps (2 * deps.length + 2) start ⟨[], [], []⟩ = some r ∧
      detect_cycle deps start = (r.1, if r.1 then r.2.path else []) := by
  obtain ⟨⟨b, st⟩, hr⟩ := dfs_completes deps start
  refine ⟨(b, st), hr, ?_⟩
  simp only [detect_cycle]
  rw [hr]

/-- **C10**: `TaskDependencyViewSet`'s create action performs no
self-dependency check and no cycle detection: creating the dependency
`(1, 1)` through it succeeds, and the committed edge set then contains a
cycle — this endpoint does not preserve the acyclicity invariant. -/
theorem C10_unchecked_endpoint_breaks_invariant :
    dependency_create [1] [] 1 1 = (.created, [(1, 1)]) ∧ ¬ Acyclic [(1, 1)] := by
  refine ⟨by decide, fun h => h 1 (ReachP.single ?_)⟩
  exact List.mem_singleton.mpr rfl

/-! ## Soundness of the reported cycle witness

While the search runs, `path` is a duplicate-free chain of edges, `stack`
holds exactly the nodes of `path`, and every stacked node is visited.  When
the search reports a cycle it appends the stacked neighbour to `path`, so the
result is a chain ending in a repeated node. -/

theorem chain'_concat {R : TaskId → TaskId → Prop} {l : List TaskId} {u n : TaskId}
    (hc : List.Chain' R l) (hl : l.getLast? = some u) (hr : R u n) :
    List.Chain' R (l ++ [n]) := by
  rw [List.chain'_append]
  refine ⟨hc, List.chain'_singleton _, ?_⟩
  intro x hx y hy
  rw [hl] at hx
  have hxu : u = x := by simpa using hx
  have hyn : n = y := by simpa using hy
  subst hxu; subst hyn; exact hr

theorem dfsGo_sound {deps : List DepEdge}
    {recur : TaskId → DfsState → Option (Bool × DfsState)}
    (hrecMono : ∀ n st b st2, recur n st = some (b, st2) → st.visited ⊆ st2.visited)
    (hrecFrame : ∀ n st st2, recur n st = some (false, st2) →
      st2.stack = st.stack ∧ st2.path = st.path)
    (hrecSound : ∀ n st st2, recur n st = some (true, st2) → GoodSt deps st →
      n ∉ st.visited → LinkTo deps st n →
      ∃ p m, st2.path = p ++ [m] ∧ p.Nodup ∧
        List.Chain' (fun u v => (u, v) ∈ deps) (p ++ [m]) ∧ m ∈ p ∧
        ∃ ext, p = st.path ++ n :: ext)
    (node : TaskId) :
    ∀ ns st st2, dfsGo deps recur ns st = some (true, st2) →
      GoodSt deps st → (∀ n ∈ ns, n ∈ build_graph deps node) →
      st.path.getLast? = some node →
      ∃ p m, st2.path = p ++ [m] ∧ p.Nodup ∧
        List.Chain' (fun u v => (u, v) ∈ deps) (p ++ [m]) ∧ m ∈ p ∧
        ∃ ext, p = st.path ++ ext := by
  intro ns
  induction ns with
  | nil =>
    intro st st2 h
    simp only [dfsGo] at h
    exact absurd h (by simp)
  | cons n rest ih =>
    intro st st2 h hg hns hlast
    simp only [dfsGo] at h
    split at h
    · rename_i hnv
      cases hrc : recur n st with
      | none => rw [hrc] at h; exact absurd h (by simp)
      | some pr =>
        rw [hrc] at h
        obtain ⟨b1, stm⟩ := pr
        cases b1 with
        | true =>
          cases h
          have hlk : LinkTo deps st n :=
            Or.inr ⟨node, hlast, mem_build_graph.mp (hns n (List.mem_cons_self _ _))⟩
          obtain ⟨p, m, h1, h2, h3, h4, ext, h5⟩ := hrecSound n st st2 hrc hg hnv hlk
          exact ⟨p, m, h1, h2, h3, h4, n :: ext, h5⟩
        | false =>
          obtain ⟨hsf, hpf⟩ := hrecFrame n st stm hrc
          have hgm : GoodSt deps stm := by
            obtain ⟨g1, g2, g3, g4⟩ := hg
            refine ⟨by rw [hpf]; exact g1, by rw [hpf]; exact g2, ?_, ?_⟩
            · intro x; rw [hsf, hpf]; exact g3 x
            · intro x hx
              rw [hsf] at hx
              exact hrecMono n st false stm hrc (g4 x hx)
          obtain ⟨p, m, h1, h2, h3, h4, ext, h5⟩ := ih stm st2 h hgm
            (fun x hx => hns x (List.mem_cons_of_mem _ hx)) (by rw [hpf]; exact hlast)
          exact ⟨p, m, h1, h2, h3, h4, ext, by rw [hpf] at h5; exact h5⟩
    · split at h
      · rename_i hst
        cases h
        obtain ⟨g1, g2, g3, g4⟩ := hg
        refine ⟨st.path, n, rfl, g1, ?_, (g3 n).mp hst, [], (List.append_nil _).symm⟩
        exact chain'_concat g2 hlast
          (mem_build_graph.mp (hns n (List.mem_cons_self _ _)))
      · exact ih st st2 h hg (fun x hx => hns x (List.mem_cons_of_mem _ hx)) hlast

theorem dfs_sound {deps : List DepEdge} :
    ∀ fuel node st st2, dfs deps fuel node st = some (true, st2) →
      GoodSt deps st → node ∉ st.visited → LinkTo deps st node →
      ∃ p m, st2.path = p ++ [m] ∧ p.Nodup ∧
        List.Chain' (fun u v => (u, v) ∈ deps) (p ++ [m]) ∧ m ∈ p ∧
        ∃ ext, p = st.path ++ node :: ext := by
  intro fuel
  induction fuel with
  | zero => intro node st st2 h; exact absurd h (by simp [dfs])
  | succ fuel ih =>
    intro node st st2 h hg hnv hlink
    obtain ⟨g1, g2, g3, g4⟩ := hg
    have hnp : node ∉ st.path := fun hc => hnv (g4 node ((g3 node).mpr hc))
    simp only [dfs] at h
    cases hgo : dfsGo deps (dfs deps fuel) (build_graph deps node)
        ⟨node :: st.visited, node :: st.stack, st.path ++ [node]⟩ with
    | none => rw [hgo] at h; exact absurd h (by simp)
    | some pr =>
      rw [hgo] at h
      obtain ⟨b1, stm⟩ := pr
      cases b1 with
      | false => exact absurd h (by simp)
      | true =>
        cases h
        have hg1 : GoodSt deps ⟨node :: st.visited, node :: st.stack,
            st.path ++ [node]⟩ := by
          refine ⟨?_, ?_, ?_, ?_⟩
          · exact List.Nodup.append g1 (List.nodup_singleton _)
              (fun x hx hx2 => hnp ((List.mem_singleton.mp hx2) ▸ hx))
          · rcases hlink with hl | ⟨u, hu, he⟩
            · rw [hl]
              exact List.chain'_singleton _
            · exact chain'_concat g2 hu he
          · intro x
            rw [List.mem_cons, List.mem_append, List.mem_singleton, g3 x]
            exact Or.comm
          · intro x hx
            rcases List.mem_cons.mp hx with h1 | h1
            · exact h1 ▸ List.mem_cons_self _ _
            · exact List.mem_cons_of_mem _ (g4 x h1)
        obtain ⟨p, m, h1, h2, h3, h4, ext, h5⟩ :=
          dfsGo_sound
            (fun n s b s2 hh => dfs_mono fuel n s b s2 hh)
            (fun n s s2 hh => dfs_frame fuel n s s2 hh)
            (fun n s s2 hh hgg hnn hll => ih n s s2 hh hgg hnn hll)
            node _ _ _ hgo hg1 (fun x hx => hx) (List.getLast?_concat _)
        refine ⟨p, m, h1, h2, h3, h4, ext, ?_⟩
        rw [h5]
        simp

/-- When `detect_cycle` reports a cycle, the returned path is a duplicate-free
edge chain from the start node whose appended final element repeats an
earlier node. -/
theorem detect_cycle_true_shape {deps : List DepEdge} {start : TaskId}
    {pth : List TaskId} (h : detect_cycle deps start = (true, pth)) :
    ∃ q m, pth = (start :: q) ++ [m] ∧ (start :: q).Nodup ∧
      List.Chain' (fun u v => (u, v) ∈ deps) pth ∧ m ∈ start :: q := by
  obtain ⟨⟨b, st2⟩, hr⟩ := dfs_completes deps start
  simp only [detect_cycle] at h
  rw [hr] at h
  cases b with
  | false => exact absurd h (by simp)
  | true =>
    have hp : st2.path = pth := congrArg Prod.snd h
    have hgood : GoodSt deps ⟨[], [], []⟩ := by
      refine ⟨List.nodup_nil, List.chain'_nil, ?_, ?_⟩
      · intro x
        constructor
        · intro hx; exact absurd hx (List.not_mem_nil _)
        · intro hx; exact absurd hx (List.not_mem_nil _)
      · intro x hx; exact absurd hx (List.not_mem_nil _)
    obtain ⟨p, m, h1, h2, h3, h4, ext, h5⟩ := dfs_sound _ start _ _ hr hgood
      (List.not_mem_nil _) (Or.inl rfl)
    rw [List.nil_append] at h5
    subst h5
    exact ⟨ext, m, hp ▸ h1, h2, hp ▸ h1 ▸ h3, h4⟩

/-! ## From the witness shape to the closed loop

The consecutive pairs of a list `w` are `w.zip w.tail`.  On a previously
acyclic edge set, a detected cycle must traverse the staged edge `(a, b)`,
and since the path starts at `a` and is duplicate-free before its final
repeated node, the repeated node is `a` itself and `b` is the second node. -/

theorem chain'_pair_mem {R : TaskId → TaskId → Prop} :
    ∀ (w : List TaskId), List.Chain' R w → ∀ pr ∈ w.zip w.tail, R pr.1 pr.2 := by
  intro w
  induction w with
  | nil => intro _ pr hpr; exact absurd hpr (by simp)
  | cons x rest ih =>
    intro hc pr hpr
    cases rest with
    | nil => exact absurd hpr (by simp)
    | cons y rest2 =>
      rw [List.chain'_cons] at hc
      rcases List.mem_cons.mp hpr with h1 | h2
      · subst h1; exact hc.1
      · exact ih hc.2 pr h2

theorem pair_source_mem :
    ∀ (w : List TaskId) (pr : TaskId × TaskId), pr ∈ w.zip w.tail →
      pr.1 ∈ w.dropLast := by
  intro w
  induction w with
  | nil => intro pr hpr; exact absurd hpr (by simp)
  | cons x rest ih =>
    intro pr hpr
    cases rest with
    | nil => exact absurd hpr (by simp)
    | cons y rest2 =>
      rcases List.mem_cons.mp hpr with h1 | h2
      · subst h1
        exact List.mem_cons_self _ _
      · exact List.mem_cons_of_mem _ (ih pr h2)

theorem chain'_restrict {deps : List DepEdge} {a b : TaskId} :
    ∀ (w : List TaskId), List.Chain' (fun u v => (u, v) ∈ deps ++ [(a, b)]) w →
      (a, b) ∉ w.zip w.tail → List.Chain' (fun u v => (u, v) ∈ deps) w := by
  intro w
  induction w with
  | nil => intro _ _; exact List.chain'_nil
  | cons x rest ih =>
    intro hc hab
    cases rest with
    | nil => exact List.chain'_singleton _
    | cons y rest2 =>
      rw [List.chain'_cons] at hc ⊢
      constructor
      · rcases List.mem_append.mp hc.1 with h1 | h1
        · exact h1
        · exfalso
          have he : (x, y) = (a, b) := List.mem_singleton.mp h1
          exact hab (by rw [← he]; exact List.mem_cons_self _ _)
      · exact ih hc.2 (fun hc2 => hab (List.mem_cons_of_mem _ hc2))

theorem pair_from_head {q : List TaskId} {a x : TaskId} (hnq : a ∉ q)
    (h : (a, x) ∈ (a :: (q ++ [a])).zip (q ++ [a])) :
    (q ++ [a]).head? = some x := by
  cases hq : q ++ [a] with
  | nil => rw [hq] at h; exact absurd h (by simp)
  | cons c rest =>
    rw [hq] at h
    rcases List.mem_cons.mp h with h1 | h2
    · have hxc : x = c := congrArg Prod.snd h1
      rw [hxc]
      rfl
    · exfalso
      have hsrc := pair_source_mem (c :: rest) (a, x) h2
      rw [← hq, List.dropLast_concat] at hsrc
      exact hnq hsrc

theorem reachP_of_chain {deps : List DepEdge} :
    ∀ (l : List TaskId) {x y : TaskId},
      List.Chain' (fun u v => (u, v) ∈ deps) (x :: (l ++ [y])) → ReachP deps x y := by
  intro l
  induction l with
  | nil =>
    intro x y h
    rw [List.nil_append, List.chain'_cons] at h
    exact ReachP.single h.1
  | cons z l ih =>
    intro x y h
    rw [List.cons_append, List.chain'_cons] at h
    exact ReachP.cons h.1 (ih h.2)

/-- On a previously acyclic edge set, a `Circular dependency detected`
response carries a path of the form `a :: b :: q ++ [a]`: the closed loop
starting and ending at the task, traversing the staged edge first, with every
consecutive pair an edge of the staged graph. -/
theorem propose_edge_cycle_shape {tasks : List TaskId} {deps : List DepEdge}
    {a b : TaskId} {pth : List TaskId} {deps2 : List DepEdge} (hac : Acyclic deps)
    (h : propose_edge tasks deps a b = (.cycleError pth, deps2)) :
    ∃ q, pth = a :: b :: q ++ [a] ∧
      List.Chain' (fun u v => (u, v) ∈ add_edge deps a b) pth := by
  simp only [propose_edge] at h
  split at h
  · exact absurd h (by simp)
  · split at h
    · exact absurd h (by simp)
    · split at h
      · exact absurd h (by simp)
      · split at h
        · rename_i h1 h2 h3 hcirc
          have hba : b ≠ a := fun hc => h2 (by rw [hc]; exact beq_self_eq_true a)
          have hpth : (detect_cycle (add_edge deps a b) a).2 = pth := by
            have h5 := congrArg Prod.fst h
            simpa using h5
          have hdet : detect_cycle (add_edge deps a b) a = (true, pth) := by
            rw [Prod.ext_iff]
            exact ⟨hcirc, hpth⟩
          obtain ⟨q0, m, hshape, hnd, hchain, hm⟩ := detect_cycle_true_shape hdet
          obtain ⟨α, β, hsplit⟩ := List.append_of_mem hm
          have hpth2 : pth = α ++ (m :: (β ++ [m])) := by
            rw [hshape, hsplit, List.append_assoc, List.cons_append]
          have hnab : (a, b) ∉ deps := by
            intro hmemd
            have hchain2 : List.Chain' (fun u v => (u, v) ∈ deps) pth := by
              rw [add_edge_mem_eq hmemd] at hchain
              exact hchain
            rw [hpth2] at hchain2
            exact hac m (reachP_of_chain β (List.chain'_append.mp hchain2).2.1)
          have hstg : add_edge deps a b = deps ++ [(a, b)] := by
            rw [add_edge, if_neg hnab]
          rw [hstg] at hchain
          have hchainw : List.Chain' (fun u v => (u, v) ∈ deps ++ [(a, b)])
              (m :: (β ++ [m])) := by
            have h6 := hchain
            rw [hpth2] at h6
            exact (List.chain'_append.mp h6).2.1
          have handq : a ∉ q0 := (List.nodup_cons.mp hnd).1
          have hma : m = a := by
            by_contra hma
            by_cases hab2 : (a, b) ∈ (m :: (β ++ [m])).zip (β ++ [m])
            · have hsrc := pair_source_mem (m :: (β ++ [m])) (a, b) hab2
              have hdl : (m :: (β ++ [m])).dropLast = m :: β := by
                rw [show m :: (β ++ [m]) = (m :: β) ++ [m] from
                  (List.cons_append m β [m]).symm]
                exact List.dropLast_concat
              rw [hdl] at hsrc
              rcases List.mem_cons.mp hsrc with h7 | h7
              · exact hma h7.symm
              · cases α with
                | nil =>
                  rw [List.nil_append] at hsplit
                  exact hma ((List.cons_eq_cons.mp hsplit).1).symm
                | cons c α2 =>
                  rw [List.cons_append] at hsplit
                  obtain ⟨hca, hq0⟩ := List.cons_eq_cons.mp hsplit
                  apply handq
                  rw [hq0]
                  exact List.mem_append.mpr (Or.inr (List.mem_cons_of_mem _ h7))
            · exact hac m (reachP_of_chain β (chain'_restrict _ hchainw hab2))
          have hma2 : a = m := hma.symm
          subst hma2
          have hα : α = [] := by
            cases α with
            | nil => rfl
            | cons c α2 =>
              rw [List.cons_append] at hsplit
              obtain ⟨hca, hq0⟩ := List.cons_eq_cons.mp hsplit
              refine absurd ?_ handq
              rw [hq0]
              exact List.mem_append.mpr (Or.inr (List.mem_cons_self _ _))
          subst hα
          rw [List.nil_append] at hsplit hpth2
          have hq0β : β = q0 := ((List.cons_eq_cons.mp hsplit).2).symm
          subst hq0β
          by_cases hab2 : (a, b) ∈ pth.zip pth.tail
          · have hab3 : (a, b) ∈ (a :: (β ++ [a])).zip (β ++ [a]) := by
              rw [hpth2] at hab2
              exact hab2
            have hh := pair_from_head handq hab3
            cases hq : β with
            | nil =>
              rw [hq] at hh
              have hh2 : a = b := by simpa using hh
              exact absurd hh2.symm hba
            | cons c q2 =>
              rw [hq] at hh
              have hcb : c = b := by simpa using hh
              refine ⟨q2, ?_, by rw [hstg]; exact hchain⟩
              rw [hpth2, hq, hcb]
              rfl
          · exfalso
            have h8 := chain'_restrict pth hchain hab2
            rw [hpth2] at h8
            exact hac a (reachP_of_chain β h8)
        · exact absurd h (by simp)

/-- **C8**: on a previously acyclic edge set, a `CycleError` witness path is
the closed loop: it starts and ends at the same task `a`, every consecutive
pair is an edge of the staged graph, and it traverses the staged edge
`(a, b)` (as its first step).  In particular, after `propose_edge(1,2)` and
`propose_edge(2,3)` succeed on an empty graph, `propose_edge(3,1)` returns
`CycleError` with witness `[3, 1, 2, 3]` — a rotation of `[1, 2, 3, 1]` —
and edge `(3, 1)` is absent afterwards. -/
theorem C8_cycle_witness_closed_loop :
    (∀ (tasks : List TaskId) (deps : List DepEdge) (a b : TaskId)
        (pth : List TaskId) (deps2 : List DepEdge), Acyclic deps →
        propose_edge tasks deps a b = (.cycleError pth, deps2) →
        (∃ q, pth = a :: b :: q ++ [a]) ∧
          List.Chain' (fun u v => (u, v) ∈ add_edge deps a b) pth ∧
          pth.head? = some a ∧ pth.getLast? = some a ∧
          (a, b) ∈ pth.zip pth.tail) ∧
      propose_edge [1, 2, 3] [] 1 2 = (.created, [(1, 2)]) ∧
      propose_edge [1, 2, 3] [(1, 2)] 2 3 = (.created, [(1, 2), (2, 3)]) ∧
      propose_edge [1, 2, 3] [(1, 2), (2, 3)] 3 1
        = (.cycleError [3, 1, 2, 3], [(1, 2), (2, 3)]) := by
  refine ⟨?_, by decide, by decide, by decide⟩
  intro tasks deps a b pth deps2 hac h
  obtain ⟨q, hq, hchain⟩ := propose_edge_cycle_shape hac h
  subst hq
  refine ⟨⟨q, rfl⟩, hchain, rfl, ?_, ?_⟩
  · exact List.getLast?_concat (a :: b :: q)
  · exact List.mem_cons_self _ _

theorem C8_witness :
    (∃ q, ([3, 1, 2, 3] : List TaskId) = 3 :: 1 :: q ++ [3]) ∧
      List.Chain' (fun u v => (u, v) ∈ add_edge [(1, 2), (2, 3)] 3 1) [3, 1, 2, 3] ∧
      ([3, 1, 2, 3] : List TaskId).head? = some 3 ∧
      ([3, 1, 2, 3] : List TaskId).getLast? = some 3 ∧
      ((3 : TaskId), (1 : TaskId)) ∈
        ([3, 1, 2, 3] : List TaskId).zip ([3, 1, 2, 3] : List TaskId).tail :=
  C8_cycle_witness_closed_loop.1 [1, 2, 3] [(1, 2), (2, 3)] 3 1 [3, 1, 2, 3]
    [(1, 2), (2, 3)]
    (by
      have h := propose_edge_seq_acyclic [1, 2, 3] [(1, 2), (2, 3)]
        acyclic_nil
      have he : propose_edge_seq [1, 2, 3] [] [(1, 2), (2, 3)] = [(1, 2), (2, 3)] := by
        decide
      rwa [he] at h)
    (by decide)

end TaskMgmt
